import Mathlib

/-!
# swarm-rs: a shallow embedding of the gossip membership / DHT core

This file embeds the core of the `swarm-rs` crate (the modules reachable from
`src/lib.rs`: `node.rs`, `topology/mod.rs`, `topology/cluster.rs`,
`topology/dht.rs`, `lib.rs`) and proves properties of the embedded
definitions.

Modelling conventions:

* Machine integers (`u8`, `u16`, `u32`, `u64`, `usize`) are `Nat`, with
  explicit `% 2^w` exactly where Rust performs a wrapping cast (`as u8`,
  `as u16`).
* Byte streams are `List Nat` (each element a byte value).  A reader is a
  function `List Nat → Option (α × List Nat)` returning the parsed value and
  the unconsumed tail; `none` models an I/O or protocol error (`?` in Rust).
* Rust `String` values are modelled by their UTF-8 byte content, `List Nat`.
  (`String::from_utf8` in `read_string` always succeeds on bytes that were
  produced from a Rust string; the byte-list model elides the check.)
* `BTreeMap` is modelled as an association list kept sorted by key;
  `HashMap` is modelled as an association list whose order stands for the
  map's (unspecified) iteration order, with `insert` replacing in place when
  the key is present and appending otherwise.
* `DefaultHasher` is `SipHasher13::new_with_keys(0, 0)`; it is embedded
  bit-exactly (SipHash-1-3, one compression round, three finalization
  rounds), with multi-byte hasher writes contributing their little-endian
  (x86-64 native) bytes to the stream.
-/

set_option maxRecDepth 40000

/-! ## Big-endian integer codec (the `byteorder` calls used by `node.rs`) -/

/-- `WriteBytesExt::write_u8`: one byte (`as u8` wraps). -/
def write_u8 (n : Nat) : List Nat := [n % 256]

/-- `WriteBytesExt::write_u16::<BigEndian>`: two bytes, most significant first. -/
def write_u16 (n : Nat) : List Nat := [n / 256 % 256, n % 256]

/-- `WriteBytesExt::write_u32::<BigEndian>`: four bytes, most significant first. -/
def write_u32 (n : Nat) : List Nat := write_u16 (n / 65536) ++ write_u16 n

/-- `WriteBytesExt::write_u64::<BigEndian>`: eight bytes, most significant first. -/
def write_u64 (n : Nat) : List Nat := write_u32 (n / 4294967296) ++ write_u32 n

/-- `ReadBytesExt::read_u8`: consume one byte; `none` on a truncated stream. -/
def read_u8 : List Nat → Option (Nat × List Nat)
  | b :: rest => some (b, rest)
  | [] => none

/-- `ReadBytesExt::read_u16::<BigEndian>`: consume two bytes. -/
def read_u16 : List Nat → Option (Nat × List Nat)
  | b0 :: b1 :: rest => some (b0 * 256 + b1, rest)
  | _ => none

/-- `ReadBytesExt::read_u32::<BigEndian>`: consume four bytes. -/
def read_u32 (input : List Nat) : Option (Nat × List Nat) := do
  let (hi, r1) ← read_u16 input
  let (lo, r2) ← read_u16 r1
  some (hi * 65536 + lo, r2)

/-- `ReadBytesExt::read_u64::<BigEndian>`: consume eight bytes. -/
def read_u64 (input : List Nat) : Option (Nat × List Nat) := do
  let (hi, r1) ← read_u32 input
  let (lo, r2) ← read_u32 r1
  some (hi * 4294967296 + lo, r2)

/-- `Read::read_exact` into a buffer of `k` bytes; `none` when the stream is
too short. -/
def read_exact (k : Nat) (input : List Nat) : Option (List Nat × List Nat) :=
  if input.length < k then none else some (input.take k, input.drop k)

theorem read_u16_write (n : Nat) (rest : List Nat) :
    read_u16 (write_u16 n ++ rest) = some (n % 65536, rest) := by
  simp only [write_u16, List.cons_append, List.nil_append, read_u16]
  congr 1
  congr 1
  omega

theorem read_u32_write (n : Nat) (rest : List Nat) :
    read_u32 (write_u32 n ++ rest) = some (n % 4294967296, rest) := by
  simp only [write_u32, List.append_assoc, read_u32, read_u16_write,
    Option.bind_eq_bind, Option.some_bind]
  congr 1
  congr 1
  omega

theorem read_u64_write (n : Nat) (rest : List Nat) :
    read_u64 (write_u64 n ++ rest) = some (n % 18446744073709551616, rest) := by
  simp only [write_u64, List.append_assoc, read_u64, read_u32_write,
    Option.bind_eq_bind, Option.some_bind]
  congr 1
  congr 1
  omega

theorem read_u16_write_of_lt {n : Nat} (h : n < 65536) (rest : List Nat) :
    read_u16 (write_u16 n ++ rest) = some (n, rest) := by
  rw [read_u16_write, Nat.mod_eq_of_lt h]

theorem read_u32_write_of_lt {n : Nat} (h : n < 4294967296) (rest : List Nat) :
    read_u32 (write_u32 n ++ rest) = some (n, rest) := by
  rw [read_u32_write, Nat.mod_eq_of_lt h]

theorem read_u64_write_of_lt {n : Nat} (h : n < 18446744073709551616) (rest : List Nat) :
    read_u64 (write_u64 n ++ rest) = some (n, rest) := by
  rw [read_u64_write, Nat.mod_eq_of_lt h]

theorem read_exact_append {k : Nat} {bs : List Nat} (h : bs.length = k) (rest : List Nat) :
    read_exact k (bs ++ rest) = some (bs, rest) := by
  subst h
  simp [read_exact, List.take_left, List.drop_left]

/-! ## Strings and metadata (`node.rs`: `read_string`, `write_string`,
`BTreeMap<String, String>`) -/

/-- `write_string` (`node.rs:133-138`): a `u8` length prefix (`value.len() as
u8`, a wrapping cast) followed by all of the raw bytes.  The Rust `Result` can
only carry a writer I/O error, so the encoding itself is a total function. -/
def write_string (value : List Nat) : List Nat := (value.length % 256) :: value

/-- `read_string` (`node.rs:125-131`): a `u8` length then that many raw bytes. -/
def read_string (input : List Nat) : Option (List Nat × List Nat) := do
  let (len, r) ← read_u8 input
  read_exact len r

theorem read_string_write {s : List Nat} (h : s.length ≤ 255) (rest : List Nat) :
    read_string (write_string s ++ rest) = some (s, rest) := by
  simp only [write_string, read_string, List.cons_append, read_u8,
    Option.bind_eq_bind, Option.some_bind, Nat.mod_eq_of_lt (by omega : s.length < 256)]
  exact read_exact_append rfl rest

/-- Lexicographic byte order on UTF-8 contents: the `Ord` instance of Rust
`String` that drives `BTreeMap<String, String>` iteration. -/
def ltKey : List Nat → List Nat → Bool
  | [], [] => false
  | [], _ :: _ => true
  | _ :: _, [] => false
  | a :: as, b :: bs => decide (a < b) || (a == b && ltKey as bs)

theorem ltKey_irrefl (a : List Nat) : ltKey a a = false := by
  induction a with
  | nil => rfl
  | cons x xs ih => simp [ltKey, ih]

theorem ltKey_asymm : ∀ {a b : List Nat}, ltKey a b = true → ltKey b a = false
  | [], [], h => by simp [ltKey] at h
  | [], _ :: _, _ => rfl
  | _ :: _, [], h => by simp [ltKey] at h
  | x :: xs, y :: ys, h => by
    simp only [ltKey, Bool.or_eq_true, decide_eq_true_eq, Bool.and_eq_true, beq_iff_eq] at h
    rcases h with h | ⟨rfl, h⟩
    · have hne : (y == x) = false := beq_eq_false_iff_ne.mpr (Nat.ne_of_gt h)
      simp [ltKey, Nat.lt_asymm h, hne]
    · simp [ltKey, ltKey_asymm h]

theorem ltKey_ne {a b : List Nat} (h : ltKey a b = true) : a ≠ b := by
  rintro rfl
  rw [ltKey_irrefl] at h
  exact Bool.false_ne_true h

/-- `BTreeMap::insert` on the metadata map: keep the association list sorted by
`ltKey`, replacing the value when the key is already present. -/
def mdInsert : List (List Nat × List Nat) → List Nat → List Nat →
    List (List Nat × List Nat)
  | [], k, v => [(k, v)]
  | (k1, v1) :: rest, k, v =>
    if ltKey k k1 then (k, v) :: (k1, v1) :: rest
    else if k == k1 then (k, v) :: rest
    else (k1, v1) :: mdInsert rest k v

/-- Inserting a key strictly above every present key appends at the end. -/
theorem mdInsert_append_max {md : List (List Nat × List Nat)} {k : List Nat} (v : List Nat)
    (h : ∀ p ∈ md, ltKey p.1 k = true) : mdInsert md k v = md ++ [(k, v)] := by
  induction md with
  | nil => rfl
  | cons p rest ih =>
    obtain ⟨k1, v1⟩ := p
    have h1 : ltKey k1 k = true := h (k1, v1) (List.mem_cons_self _ _)
    have hlt : ltKey k k1 = false := ltKey_asymm h1
    have hne : (k == k1) = false := by
      simp only [beq_eq_false_iff_ne, ne_eq]
      exact fun hkk => ltKey_ne h1 hkk.symm
    simp [mdInsert, hlt, hne, ih fun p hp => h p (List.mem_cons_of_mem _ hp)]

/-! ## Node records (`node.rs`) -/

/-- Rust `std::net::IpAddr`, carried as its raw octets (4 for v4, 16 for v6). -/
inductive IpAddr where
  | v4 (octets : List Nat)
  | v6 (octets : List Nat)
deriving DecidableEq, Repr

/-- `SocketAddr`: IP address and port. -/
structure SocketAddr where
  ip : IpAddr
  port : Nat
deriving DecidableEq, Repr

/-- `Node` (`node.rs:11-17`): id, gossip IP address, metadata map (sorted by
key), port.  The metadata list is the `BTreeMap` in ascending-key order. -/
structure Node where
  id : Nat
  ip_address : IpAddr
  metadata : List (List Nat × List Nat)
  port : Nat
deriving DecidableEq, Repr

namespace Node

/-- `Node::new`: empty metadata. -/
def new (id : Nat) (ip_address : IpAddr) (port : Nat) : Node :=
  { id := id, ip_address := ip_address, metadata := [], port := port }

/-- `Node::get_address`: `SocketAddr::new(self.ip_address, self.port)`. -/
def get_address (n : Node) : SocketAddr := { ip := n.ip_address, port := n.port }

/-- `Node::get_id`. -/
def get_id (n : Node) : Nat := n.id

/-- `Node::set_metadata`: `self.metadata.insert(key, value)`. -/
def set_metadata (n : Node) (key value : List Nat) : Node :=
  { n with metadata := mdInsert n.metadata key value }

/-- `Node::write` (`node.rs:83-109`): big-endian id, family tag (4 or 6) and
raw octets, port, metadata count (`len() as u16`, a wrapping cast), then each
`(key, value)` in ascending key order through `write_string`. -/
def write (n : Node) : List Nat :=
  write_u32 n.id ++
  (match n.ip_address with
   | .v4 o => write_u8 4 ++ o
   | .v6 o => write_u8 6 ++ o) ++
  write_u16 n.port ++
  write_u16 n.metadata.length ++
  List.flatten (n.metadata.map fun kv => write_string kv.1 ++ write_string kv.2)

/-- The address part of `Node::read` (`node.rs:50-62`): a family tag of 4 or 6
then the raw octets; any other tag is the protocol error
`"unknown ip version"`. -/
def read_ip (input : List Nat) : Option (IpAddr × List Nat) := do
  let (tag, r) ← read_u8 input
  match tag with
  | 4 => do
    let (o, r2) ← read_exact 4 r
    some (IpAddr.v4 o, r2)
  | 6 => do
    let (o, r2) ← read_exact 16 r
    some (IpAddr.v6 o, r2)
  | _ => none

/-- The metadata loop of `Node::read` (`node.rs:68-74`): `metadata_len`
iterations of `read_string` for key and value, inserted via `set_metadata`. -/
def readMetadata : Nat → Node → List Nat → Option (Node × List Nat)
  | 0, n, input => some (n, input)
  | count + 1, n, input => do
    let (key, r1) ← read_string input
    let (value, r2) ← read_string r1
    readMetadata count (n.set_metadata key value) r2

/-- `Node::read` (`node.rs:44-77`). -/
def read (input : List Nat) : Option (Node × List Nat) := do
  let (id, r1) ← read_u32 input
  let (ip, r2) ← read_ip r1
  let (port, r3) ← read_u16 r2
  let (metadata_len, r4) ← read_u16 r3
  readMetadata metadata_len (Node.new id ip port) r4

end Node

/-! ## Well-formedness: the bounds the Rust types and the spec's data model
impose on a node record -/

/-- Every byte value fits in a `u8`. -/
def wfBytes (s : List Nat) : Prop := ∀ b ∈ s, b < 256

/-- Octet list of the right length, with byte-sized entries. -/
def wfIp : IpAddr → Prop
  | .v4 o => o.length = 4 ∧ wfBytes o
  | .v6 o => o.length = 16 ∧ wfBytes o

/-- A metadata string: at most 255 bytes (the spec's data-model bound, §3),
each a `u8`. -/
def wfString (s : List Nat) : Prop := s.length ≤ 255 ∧ wfBytes s

/-- The metadata association list is strictly sorted by key — the `BTreeMap`
representation invariant. -/
def mdSorted (md : List (List Nat × List Nat)) : Prop :=
  List.Pairwise (fun a b => ltKey a.1 b.1 = true) md

/-- A node of the spec's data model as represented by the Rust types: `u32`
id, well-formed address, `u16` port, fewer than `2^16` metadata entries, the
`BTreeMap` invariant, and short metadata strings. -/
def wfNode (n : Node) : Prop :=
  n.id < 4294967296 ∧ wfIp n.ip_address ∧ n.port < 65536 ∧
  n.metadata.length < 65536 ∧ mdSorted n.metadata ∧
  ∀ kv ∈ n.metadata, wfString kv.1 ∧ wfString kv.2

instance (s : List Nat) : Decidable (wfBytes s) := List.decidableBAll _ s
instance (ip : IpAddr) : Decidable (wfIp ip) := by
  cases ip <;> (simp only [wfIp]; infer_instance)
instance (s : List Nat) : Decidable (wfString s) := by
  unfold wfString; infer_instance
instance (md : List (List Nat × List Nat)) : Decidable (mdSorted md) := by
  unfold mdSorted; infer_instance
instance (n : Node) : Decidable (wfNode n) := by
  unfold wfNode; infer_instance

/-! ## Codec round trip -/

/-- The byte image of the metadata section: each `(key, value)` through
`write_string`, in the map's ascending-key order. -/
def mdBytes (md : List (List Nat × List Nat)) : List Nat :=
  List.flatten (md.map fun kv => write_string kv.1 ++ write_string kv.2)

theorem Node.write_eq (n : Node) :
    Node.write n =
      write_u32 n.id ++
      (match n.ip_address with
       | .v4 o => write_u8 4 ++ o
       | .v6 o => write_u8 6 ++ o) ++
      write_u16 n.port ++ write_u16 n.metadata.length ++ mdBytes n.metadata := rfl

/-- Reading back the metadata section: the loop of `set_metadata` inserts over
a stream that lists the pairs in strictly ascending key order extends the
node's metadata map by exactly those pairs. -/
theorem Node.readMetadata_write (md : List (List Nat × List Nat)) :
    ∀ (n : Node) (rest : List Nat),
      mdSorted (n.metadata ++ md) →
      (∀ kv ∈ md, kv.1.length ≤ 255 ∧ kv.2.length ≤ 255) →
      Node.readMetadata md.length n (mdBytes md ++ rest) =
        some ({ n with metadata := n.metadata ++ md }, rest) := by
  induction md with
  | nil =>
    intro n rest _ _
    simp [Node.readMetadata, mdBytes]
  | cons kv t ih =>
    intro n rest hsort hlen
    obtain ⟨k, v⟩ := kv
    have hk : k.length ≤ 255 := (hlen (k, v) (List.mem_cons_self _ _)).1
    have hv : v.length ≤ 255 := (hlen (k, v) (List.mem_cons_self _ _)).2
    have hmax : ∀ p ∈ n.metadata, ltKey p.1 k = true := by
      intro p hp
      exact ((List.pairwise_append.mp hsort).2.2) p hp (k, v) (List.mem_cons_self _ _)
    have hset : n.set_metadata k v = { n with metadata := n.metadata ++ [(k, v)] } := by
      unfold Node.set_metadata
      rw [mdInsert_append_max v hmax]
    have hsort' : mdSorted ((n.metadata ++ [(k, v)]) ++ t) := by
      rwa [List.append_assoc, List.singleton_append]
    have hlen' : ∀ kv ∈ t, kv.1.length ≤ 255 ∧ kv.2.length ≤ 255 :=
      fun kv hkv => hlen kv (List.mem_cons_of_mem _ hkv)
    simp only [mdBytes, List.map_cons, List.flatten_cons, List.append_assoc,
      List.length_cons]
    simp only [Node.readMetadata, Option.bind_eq_bind, read_string_write hk,
      Option.some_bind, read_string_write hv, hset]
    have := ih { n with metadata := n.metadata ++ [(k, v)] } rest hsort' hlen'
    simpa [mdBytes, List.append_assoc] using this

/-- Round trip of the node codec: reading back the written record recovers the
record and leaves the trailing bytes untouched, for any node within the data
model's bounds. -/
theorem Node.read_write {n : Node} (h : wfNode n) (rest : List Nat) :
    Node.read (Node.write n ++ rest) = some (n, rest) := by
  obtain ⟨id, ip, md, port⟩ := n
  obtain ⟨hid, hip, hport, hmlen, hsort, hstr⟩ := h
  have hmd : Node.readMetadata md.length (Node.new id ip port) (mdBytes md ++ rest) =
      some (⟨id, ip, md, port⟩, rest) := by
    have := Node.readMetadata_write md (Node.new id ip port) rest
      (by simpa [Node.new] using hsort)
      (fun kv hkv => ⟨(hstr kv hkv).1.1, (hstr kv hkv).2.1⟩)
    simpa [Node.new] using this
  simp only [Node.write_eq, List.append_assoc]
  cases ip with
  | v4 o =>
    have hlen : o.length = 4 := hip.1
    simp only [Node.read, Node.read_ip, Option.bind_eq_bind,
      read_u32_write_of_lt hid, Option.some_bind, write_u8, Nat.reduceMod,
      List.cons_append, List.nil_append, read_u8, read_exact_append hlen,
      read_u16_write_of_lt hport, read_u16_write_of_lt hmlen]
    exact hmd
  | v6 o =>
    have hlen : o.length = 16 := hip.1
    simp only [Node.read, Node.read_ip, Option.bind_eq_bind,
      read_u32_write_of_lt hid, Option.some_bind, write_u8, Nat.reduceMod,
      List.cons_append, List.nil_append, read_u8, read_exact_append hlen,
      read_u16_write_of_lt hport, read_u16_write_of_lt hmlen]
    exact hmd

/-! ## `DefaultHasher` (`std::collections::hash_map::DefaultHasher`):
SipHash-1-3 with both keys zero.  `hasher.write(bytes)` feeds raw bytes;
`hasher.write_u32` / `write_u64` feed the native-endian (little-endian)
bytes of the integer.  The buffered streaming of the Rust implementation is
equivalent to hashing the concatenated byte stream, which is what is
embedded here. -/

/-- Truncation to 64 bits. -/
def wrap64 (n : Nat) : Nat := n % 18446744073709551616

/-- Rotate a 64-bit value left by `b` bits (`0 < b < 64`). -/
def rotl64 (x b : Nat) : Nat := wrap64 (x <<< b) ||| (x >>> (64 - b))

/-- The four 64-bit words of the SipHash internal state. -/
structure SipState where
  v0 : Nat
  v1 : Nat
  v2 : Nat
  v3 : Nat

/-- One SipHash round. -/
def sipRound (s : SipState) : SipState :=
  let v0 := wrap64 (s.v0 + s.v1)
  let v1 := rotl64 s.v1 13
  let v1 := v1 ^^^ v0
  let v0 := rotl64 v0 32
  let v2 := wrap64 (s.v2 + s.v3)
  let v3 := rotl64 s.v3 16
  let v3 := v3 ^^^ v2
  let v0 := wrap64 (v0 + v3)
  let v3 := rotl64 v3 21
  let v3 := v3 ^^^ v0
  let v2 := wrap64 (v2 + v1)
  let v1 := rotl64 v1 17
  let v1 := v1 ^^^ v2
  let v2 := rotl64 v2 32
  ⟨v0, v1, v2, v3⟩

/-- Absorb one 64-bit message word: xor into `v3`, one compression round
(SipHash-1-3 has `c = 1`), xor into `v0`. -/
def sipCompress (s : SipState) (m : Nat) : SipState :=
  let s1 := sipRound { s with v3 := s.v3 ^^^ m }
  { s1 with v0 := s1.v0 ^^^ m }

/-- A little-endian word from a byte list (first byte least significant). -/
def leWord : List Nat → Nat
  | [] => 0
  | b :: rest => b + 256 * leWord rest

/-- Absorb every complete 8-byte block, returning the final state and the
remaining tail of fewer than 8 bytes. -/
def sipBlocks (s : SipState) : List Nat → SipState × List Nat
  | b0 :: b1 :: b2 :: b3 :: b4 :: b5 :: b6 :: b7 :: rest =>
    sipBlocks (sipCompress s (leWord [b0, b1, b2, b3, b4, b5, b6, b7])) rest
  | tail => (s, tail)

/-- SipHash-1-3 of a byte stream with keys `(0, 0)`: exactly
`DefaultHasher::new()` fed with `data`, then `finish()`. -/
def sipHash13 (data : List Nat) : Nat :=
  let s : SipState :=
    ⟨0x736f6d6570736575, 0x646f72616e646f6d, 0x6c7967656e657261, 0x7465646279746573⟩
  let st := sipBlocks s data
  let b := wrap64 ((data.length % 256) <<< 56 + leWord st.2)
  let s2 := sipCompress st.1 b
  let s3 := { s2 with v2 := s2.v2 ^^^ 0xff }
  let s4 := sipRound (sipRound (sipRound s3))
  s4.v0 ^^^ s4.v1 ^^^ s4.v2 ^^^ s4.v3

/-- The little-endian bytes `Hasher::write_u32` feeds to the stream. -/
def leBytes_u32 (n : Nat) : List Nat :=
  [n % 256, n / 256 % 256, n / 65536 % 256, n / 16777216 % 256]

/-- The little-endian bytes `Hasher::write_u64` feeds to the stream. -/
def leBytes_u64 (n : Nat) : List Nat :=
  leBytes_u32 n ++ leBytes_u32 (n / 4294967296)

/-- `DefaultHasher::new().finish()` with no writes is the well-known constant
`15130871412783076140`; the embedded hasher agrees, pinning it bit-for-bit to
the Rust implementation. -/
theorem sipHash13_nil : sipHash13 [] = 15130871412783076140 := by decide

/-! ## Digests (`node.rs:112-123`, `topology/dht.rs:188-196`) -/

/-- The byte stream `hash_nodes` feeds to the hasher for one node:
`write_u32(id)` then, for each metadata pair in ascending key order, the raw
key bytes and the raw value bytes. -/
def nodeHashBytes (n : Node) : List Nat :=
  leBytes_u32 n.id ++ List.flatten (n.metadata.map fun kv => kv.1 ++ kv.2)

/-- `hash_nodes` (`node.rs:112-123`): hash the nodes in the order the caller's
iterator yields them.  Both call sites pass `HashMap::values()`, whose order
is the hash map's unspecified iteration order — the list order here. -/
def hash_nodes (nodes : List Node) : Nat :=
  sipHash13 (List.flatten (nodes.map nodeHashBytes))

/-- `hash_tokens` (`topology/dht.rs:188-196`): hash `(token, owner)` pairs in
ascending token order (`BTreeMap` iteration). -/
def hash_tokens (tokens : List (Nat × Nat)) : Nat :=
  sipHash13 (List.flatten (tokens.map fun p => leBytes_u64 p.1 ++ leBytes_u32 p.2))

/-! ## The shared maps (`HashMap<u32, Node>` and `BTreeMap<u64, u32>`) -/

/-- `HashMap::get`: the value stored under `id`, if any. -/
def lookupNode (nodes : List (Nat × Node)) (id : Nat) : Option Node :=
  (nodes.find? fun p => p.1 == id).map Prod.snd

/-- `HashMap::contains_key`. -/
def containsNode (nodes : List (Nat × Node)) (id : Nat) : Bool :=
  (nodes.find? fun p => p.1 == id).isSome

/-- `HashMap::insert(node.get_id(), node)`: replace the stored value in place
when the key is present, otherwise add the entry.  (The list order stands for
the hash map's unspecified iteration order.) -/
def insertNode (nodes : List (Nat × Node)) (n : Node) : List (Nat × Node) :=
  match nodes with
  | [] => [(n.get_id, n)]
  | (k, v) :: rest =>
    if k == n.get_id then (k, n) :: rest else (k, v) :: insertNode rest n

/-- `nodes.get_mut(&id)` followed by `set_metadata` on the found record
(`Swarm::set_metadata`, `lib.rs:58-62`): only the entry stored under `id` is
touched.  (The source `unwrap`s the lookup; when the key is absent — which
never happens, the local id is always present — the model leaves the map
unchanged.) -/
def updateNodeMetadata (nodes : List (Nat × Node)) (id : Nat) (key value : List Nat) :
    List (Nat × Node) :=
  nodes.map fun p => if p.1 == id then (p.1, p.2.set_metadata key value) else p

/-- `BTreeMap::get` on the token ring. -/
def lookupToken (tokens : List (Nat × Nat)) (t : Nat) : Option Nat :=
  (tokens.find? fun p => p.1 == t).map Prod.snd

/-- `BTreeMap::contains_key` on the token ring. -/
def containsToken (tokens : List (Nat × Nat)) (t : Nat) : Bool :=
  (tokens.find? fun p => p.1 == t).isSome

/-- `BTreeMap::insert` on the token ring: sorted insertion, replacing on an
equal key. -/
def insertToken (tokens : List (Nat × Nat)) (t o : Nat) : List (Nat × Nat) :=
  match tokens with
  | [] => [(t, o)]
  | (t1, o1) :: rest =>
    if t < t1 then (t, o) :: (t1, o1) :: rest
    else if t == t1 then (t, o) :: rest
    else (t1, o1) :: insertToken rest t o

/-! ## The DHT topology (`topology/dht.rs`) -/

/-- `Dht` (`topology/dht.rs:38-41`): the token ring (`BTreeMap<u64, u32>`,
modelled as a token-sorted association list) and the membership table
(`HashMap<u32, Node>`, modelled as an association list in iteration order). -/
structure Dht where
  tokens : List (Nat × Nat)
  nodes : List (Nat × Node)
deriving DecidableEq, Repr

namespace Dht

/-- `Dht::locate` (`topology/dht.rs:44-64`): walk the ring in ascending token
order and return the owner of the first token strictly greater than the
search token; otherwise, if the ring is nonempty, the owner of the first
(smallest) token; otherwise `None`.  The source `unwrap`s the owner lookup;
`lookupNode`'s `none` stands for that panic and the theorems assume every
owner is registered. -/
def locate (dht : Dht) (token : Nat) : Option Node :=
  match dht.tokens.find? fun p => decide (token < p.1) with
  | some p => lookupNode dht.nodes p.2
  | none =>
    match dht.tokens with
    | p :: _ => lookupNode dht.nodes p.2
    | [] => none

/-- The random index of peer selection: `rand::random::<usize>() %
(nodes.len() - 1)` (`topology/dht.rs:78`), with the raw random value `r`
passed in as a parameter. -/
def randIndex (r len : Nat) : Nat := r % (len - 1)

/-- The selection loop of `gossip_addr` (`topology/dht.rs:79-85`): skip
entries carrying the local id, return the address once the countdown reaches
zero, otherwise decrement and continue. -/
def gossipLoop (id : Nat) : List (Nat × Node) → Nat → Option SocketAddr
  | [], _ => none
  | (node_id, node) :: rest, index =>
    if node_id == id then gossipLoop id rest index
    else if index == 0 then some node.get_address
    else gossipLoop id rest (index - 1)

/-- `Dht::gossip_addr` (`topology/dht.rs:73-92`): with more than one known
node, pick a random non-local entry; otherwise fall back to the seed address
(the `else if let Some(seed_address)` arm), yielding `None` when no seed is
configured. -/
def gossip_addr (dht : Dht) (id : Nat) (seed_address : Option SocketAddr) (r : Nat) :
    Option SocketAddr :=
  if dht.nodes.length > 1 then
    gossipLoop id dht.nodes (randIndex r dht.nodes.length)
  else
    match seed_address with
    | some seed => some seed
    | none => none

/-- The node-update loop of `Dht::request` (`topology/dht.rs:112-122`):
`node_updates` records are read and inserted.  The `contains_key` test in the
source gates only a debug log line; the `nodes.insert` itself is
unconditional. -/
def processNodeUpdates : Nat → List Nat → List (Nat × Node) →
    Option (List (Nat × Node) × List Nat)
  | 0, input, nodes => some (nodes, input)
  | count + 1, input, nodes => do
    let (node, r) ← Node.read input
    processNodeUpdates count r (insertNode nodes node)

/-- The token-update loop of `Dht::request` (`topology/dht.rs:125-135`):
`token_updates` pairs are read and inserted only when the token is absent. -/
def processTokenUpdates : Nat → List Nat → List (Nat × Nat) →
    Option (List (Nat × Nat) × List Nat)
  | 0, input, tokens => some (tokens, input)
  | count + 1, input, tokens => do
    let (token, r1) ← read_u64 input
    let (id, r2) ← read_u32 r1
    let tokens2 := if containsToken tokens token then tokens else insertToken tokens token id
    processTokenUpdates count r2 tokens2

/-- `Dht::request` (`topology/dht.rs:94-138`): write the local node record and
both digests, then merge the reply's node and token updates.  The returned
pair is (bytes written to the stream, updated state); `input` is the bytes the
replier sent back. -/
def request (dht : Dht) (id : Nat) (input : List Nat) : Option (List Nat × Dht) := do
  let node ← lookupNode dht.nodes id
  let out := Node.write node ++
    write_u64 (hash_nodes (dht.nodes.map Prod.snd)) ++
    write_u64 (hash_tokens dht.tokens)
  let (node_updates, r1) ← read_u16 input
  let (nodes2, r2) ← processNodeUpdates node_updates r1 dht.nodes
  let (token_updates, r3) ← read_u16 r2
  let (tokens2, _r4) ← processTokenUpdates token_updates r3 dht.tokens
  some (out, { tokens := tokens2, nodes := nodes2 })

/-- `Dht::reply` (`topology/dht.rs:140-185`): read the requester's node record
and both digests; for each section write a zero count when the received digest
matches the locally recomputed one and the full snapshot otherwise; finally
insert the requester's record into the membership table.  As in the request
loop, the final `contains_key` check gates only a debug log line — the
`nodes.insert(node.get_id(), node)` is unconditional. -/
def reply (dht : Dht) (input : List Nat) : Option (List Nat × Dht) := do
  let (node, r1) ← Node.read input
  let (node_hash, r2) ← read_u64 r1
  let (token_hash, _r3) ← read_u64 r2
  let nodeSection :=
    if node_hash ≠ hash_nodes (dht.nodes.map Prod.snd) then
      write_u16 dht.nodes.length ++
        List.flatten ((dht.nodes.map Prod.snd).map Node.write)
    else write_u16 0
  let tokenSection :=
    if token_hash ≠ hash_tokens dht.tokens then
      write_u16 dht.tokens.length ++
        List.flatten (dht.tokens.map fun p => write_u64 p.1 ++ write_u32 p.2)
    else write_u16 0
  some (nodeSection ++ tokenSection, { dht with nodes := insertNode dht.nodes node })

end Dht

/-! ## Swarm construction and the reachable-state machine (`lib.rs`) -/

namespace Swarm

/-- The state established by `Swarm::new` (`lib.rs:29-56`) with
`DhtBuilder::build` (`topology/dht.rs:23-36`): the membership table holds
exactly the local node, and every configured token is registered to the local
id. -/
def init (id : Nat) (ip_address : IpAddr) (port : Nat) (tokens : List Nat) : Dht :=
  { nodes := [(id, Node.new id ip_address port)],
    tokens := tokens.foldl (fun m t => insertToken m t id) [] }

/-- `Swarm::set_metadata` (`lib.rs:58-62`): mutate the local record's
metadata in place. -/
def set_metadata (dht : Dht) (id : Nat) (key value : List Nat) : Dht :=
  { dht with nodes := updateNodeMetadata dht.nodes id key value }

/-- One observable mutation of the shared state.  Each insert in the source is
an independent write-lock critical section, so single-insert steps are
included alongside whole request/reply rounds. -/
inductive Step (localId : Nat) : Dht → Dht → Prop where
  | requestRound (s : Dht) (input out : List Nat) (s2 : Dht)
      (h : Dht.request s localId input = some (out, s2)) : Step localId s s2
  | replyRound (s : Dht) (input out : List Nat) (s2 : Dht)
      (h : Dht.reply s input = some (out, s2)) : Step localId s s2
  | nodeInsert (s : Dht) (n : Node) :
      Step localId s { s with nodes := insertNode s.nodes n }
  | tokenMerge (s : Dht) (t o : Nat) :
      Step localId s
        { s with tokens := if containsToken s.tokens t then s.tokens
                           else insertToken s.tokens t o }
  | setMetadata (s : Dht) (key value : List Nat) :
      Step localId s (Swarm.set_metadata s localId key value)

/-- The states reachable from construction by any sequence of gossip-handler
merges and metadata updates. -/
inductive Reachable (id : Nat) (ip_address : IpAddr) (port : Nat) (tokens : List Nat) :
    Dht → Prop where
  | init : Reachable id ip_address port tokens (Swarm.init id ip_address port tokens)
  | step (s s2 : Dht) (hs : Reachable id ip_address port tokens s)
      (h : Step id s s2) : Reachable id ip_address port tokens s2

end Swarm

/-! ## Map lemmas -/

theorem containsToken_eq (m : List (Nat × Nat)) (t : Nat) :
    containsToken m t = (lookupToken m t).isSome := by
  simp [containsToken, lookupToken]

theorem lookupToken_insertToken_ne {m : List (Nat × Nat)} {t t' : Nat} (o : Nat)
    (h : t' ≠ t) : lookupToken (insertToken m t o) t' = lookupToken m t' := by
  have hbeq : (t == t') = false := beq_eq_false_iff_ne.mpr (Ne.symm h)
  induction m with
  | nil => simp [insertToken, lookupToken, List.find?, hbeq]
  | cons p rest ih =>
    obtain ⟨t1, o1⟩ := p
    by_cases h1 : t < t1
    · simp [insertToken, h1, lookupToken, List.find?, hbeq]
    · by_cases h2 : t = t1
      · subst h2
        simp [insertToken, h1, lookupToken, List.find?, hbeq]
      · have h2' : (t == t1) = false := beq_eq_false_iff_ne.mpr h2
        simp only [insertToken, if_neg h1, h2', Bool.false_eq_true, if_false]
        simp only [lookupToken, List.find?] at ih ⊢
        cases hz : (t1 == t') <;> simp [hz, ih]

/-- Claim C7: processing a token-update section never changes an existing binding: each
incoming `(token, owner)` pair is inserted only when the token is absent
(`topology/dht.rs:131-134`), so a token already in the ring keeps its stored
owner no matter what owner the remote announces, and no error is raised. -/
theorem token_merge_insert_only :
    ∀ (count : Nat) (input : List Nat) (m m2 : List (Nat × Nat)) (rest : List Nat),
      Dht.processTokenUpdates count input m = some (m2, rest) →
      ∀ t o, lookupToken m t = some o → lookupToken m2 t = some o := by
  intro count
  induction count with
  | zero =>
    intro input m m2 rest h t o hlk
    simp only [Dht.processTokenUpdates, Option.some.injEq, Prod.mk.injEq] at h
    rw [← h.1]
    exact hlk
  | succ c ih =>
    intro input m m2 rest h t o hlk
    simp only [Dht.processTokenUpdates, Option.bind_eq_bind, Option.bind_eq_some] at h
    obtain ⟨⟨token, r1⟩, h1, ⟨id, r2⟩, h2, h3⟩ := h
    have hif : Dht.processTokenUpdates c r2
        (if containsToken m token = true then m else insertToken m token id) =
        some (m2, rest) := h3
    cases hc : containsToken m token with
    | true =>
      rw [hc] at hif
      simp only [if_true] at hif
      exact ih r2 m m2 rest hif t o hlk
    | false =>
      have hne : t ≠ token := by
        intro heq
        rw [containsToken_eq, ← heq, hlk] at hc
        simp at hc
      rw [hc] at hif
      simp only [Bool.false_eq_true, if_false] at hif
      refine ih r2 _ m2 rest hif t o ?_
      rw [lookupToken_insertToken_ne id hne]
      exact hlk

theorem token_merge_insert_only_witness :
    Dht.processTokenUpdates 1 (write_u64 42 ++ write_u32 1) [(42, 0)] = some ([(42, 0)], []) ∧
    lookupToken [(42, 0)] 42 = some 0 :=
  ⟨by decide,
   token_merge_insert_only 1 (write_u64 42 ++ write_u32 1) [(42, 0)] [(42, 0)] []
     (by decide) 42 0 (by decide)⟩

/-! ## The node merge is NOT insert-only: concrete evaluation -/

/-- A record stored under id 1 before the merge. -/
def exStored : Node := Node.new 1 (IpAddr.v4 [127, 0, 0, 1]) 9000

/-- A received record with the same id but a different port. -/
def exIncoming : Node := Node.new 1 (IpAddr.v4 [127, 0, 0, 1]) 9001

/-- The local node of the evaluation state. -/
def exLocal : Node := Node.new 0 (IpAddr.v4 [127, 0, 0, 1]) 8000

/-- A membership table already containing id 1. -/
def exDhtKnown : Dht := { tokens := [], nodes := [(0, exLocal), (1, exStored)] }

/-- Claim C1, the code at the failing input: evaluating both gossip handlers on a remote record whose id is already
present: the request-side merge (`topology/dht.rs:116-121`) and the
reply-side insert (`topology/dht.rs:174-182`) both *replace* the stored
record with the incoming one — `nodes.insert` is unconditional, the
`contains_key` test gates only a debug log — contradicting the in-code
comment `add gossiping node to nodes if does not exist`. -/
theorem node_merge_overwrites :
    ((Dht.request exDhtKnown 0 (write_u16 1 ++ Node.write exIncoming ++ write_u16 0)).map
        fun p => lookupNode p.2.nodes 1) = some (some exIncoming) ∧
    ((Dht.reply exDhtKnown (Node.write exIncoming ++ write_u64 0 ++ write_u64 0)).map
        fun p => lookupNode p.2.nodes 1) = some (some exIncoming) ∧
    exIncoming ≠ exStored := by decide

/-! ## Oversized strings are not refused: concrete evaluation -/

/-- A 256-byte metadata value (256 repetitions of `a`). -/
def longValue : List Nat := List.replicate 256 97

/-- A node carrying a metadata value longer than 255 bytes. -/
def exOversize : Node :=
  { id := 7, ip_address := IpAddr.v4 [127, 0, 0, 1],
    metadata := [([107], longValue)], port := 9 }

/-- Claim C6, the code at the failing input: `write_string` on a 256-byte value succeeds and emits a length prefix of
`256 % 256 = 0` followed by all 256 raw bytes — a corrupt frame, not an
error; decoding the node it was embedded in yields a different record (the
value reads back empty) with the 256 bytes left over as trailing garbage. -/
theorem write_string_truncates :
    write_string longValue = 0 :: longValue ∧
    Node.read (Node.write exOversize) =
      some ({ exOversize with metadata := [([107], [])] }, longValue) := by decide

/-! ## What the node digest actually depends on -/

/-- The digest contribution of one node as a function of its id and metadata
only. -/
def idMdBytes (p : Nat × List (List Nat × List Nat)) : List Nat :=
  leBytes_u32 p.1 ++ List.flatten (p.2.map fun kv => kv.1 ++ kv.2)

/-- Claim C3, amended: the node digest is a function of the *sequence* of `(id, metadata)` pairs
in the iteration order the caller supplies: two value sequences that agree on
ids and metadata (addresses and ports may differ) hash identically. -/
theorem hash_nodes_of_id_metadata (l1 l2 : List Node)
    (h : l1.map (fun n => (n.id, n.metadata)) = l2.map fun n => (n.id, n.metadata)) :
    hash_nodes l1 = hash_nodes l2 := by
  unfold hash_nodes
  have key : ∀ l : List Node,
      l.map nodeHashBytes = (l.map fun n => (n.id, n.metadata)).map idMdBytes := by
    intro l
    rw [List.map_map]
    rfl
  rw [key, key, h]

/-- Two nodes with the same id and metadata but different ports. -/
def exSameIdA : Node := Node.new 3 (IpAddr.v4 [127, 0, 0, 1]) 4000

/-- Same id and metadata as `exSameIdA`, different address. -/
def exSameIdB : Node := Node.new 3 (IpAddr.v4 [10, 0, 0, 1]) 4001

theorem hash_nodes_of_id_metadata_witness :
    hash_nodes [exSameIdA] = hash_nodes [exSameIdB] :=
  hash_nodes_of_id_metadata [exSameIdA] [exSameIdB] (by decide)

/-- First node of the order-dependence counterexample. -/
def exN1 : Node := Node.new 1 (IpAddr.v4 [127, 0, 0, 1]) 12000

/-- Second node of the order-dependence counterexample. -/
def exN2 : Node := Node.new 2 (IpAddr.v4 [127, 0, 0, 1]) 12001

/-- Claim C3, counterexample: `hash_nodes` is order dependent: the same two-node set (identical ids and
per-node metadata, here a transposition) hashes to two different digests in
the two iteration orders a `HashMap` may present its values in.  Hence two
membership tables with equal contents need not produce equal `H_nodes`. -/
theorem hash_nodes_order_dependent :
    [exN1, exN2].Perm [exN2, exN1] ∧
    hash_nodes [exN1, exN2] ≠ hash_nodes [exN2, exN1] :=
  ⟨List.Perm.swap exN2 exN1 [], by decide⟩

/-! ## The codec round trip, claim form -/

/-- Claim C4: round trip of the node codec over any in-order byte stream: for every
node within the data model's bounds (§3 of the spec: metadata keys and values
of at most 255 bytes; and the representation bounds the Rust types impose),
decoding the encoding recovers the node, metadata in ascending key order, and
leaves trailing bytes unread. -/
theorem node_codec_roundtrip (n : Node) (rest : List Nat) (h : wfNode n) :
    Node.read (Node.write n ++ rest) = some (n, rest) := Node.read_write h rest

/-- A round-trip exercise node with both address families' fields, metadata
out of insertion order. -/
def exRtNode : Node :=
  { id := 5, ip_address := IpAddr.v6 (List.replicate 16 1),
    metadata := [([97], [98]), ([99], [])], port := 7000 }

theorem node_codec_roundtrip_witness :
    Node.read (Node.write exRtNode ++ [9, 9]) = some (exRtNode, [9, 9]) :=
  node_codec_roundtrip exRtNode [9, 9] (by decide)

/-! ## `locate`: wrap-around lookup on the sorted token ring -/

/-- On a strictly ascending ring, the linear scan's first hit of
`search < token` is exactly the minimal token above the search key. -/
theorem find_min_sorted {tokens : List (Nat × Nat)} {k : Nat}
    (hsort : List.Pairwise (fun a b => a.1 < b.1) tokens) {p : Nat × Nat}
    (hp : p ∈ tokens) (hkp : k < p.1)
    (hmin : ∀ q ∈ tokens, k < q.1 → p.1 ≤ q.1) :
    (tokens.find? fun q => decide (k < q.1)) = some p := by
  induction tokens with
  | nil => cases hp
  | cons q t ih =>
    by_cases hq : k < q.1
    · have hpq : p = q := by
        rcases List.mem_cons.mp hp with rfl | hpt
        · rfl
        · have h1 : q.1 < p.1 := (List.pairwise_cons.mp hsort).1 p hpt
          have h2 : p.1 ≤ q.1 := hmin q (List.mem_cons_self _ _) hq
          omega
      subst hpq
      exact List.find?_cons_of_pos _ (by simpa using hq)
    · have hpq : p ≠ q := fun h => hq (h ▸ hkp)
      have hpt : p ∈ t := (List.mem_cons.mp hp).resolve_left hpq
      rw [List.find?_cons_of_neg _ (by simpa using hq)]
      exact ih (List.pairwise_cons.mp hsort).2 hpt
        fun q' hq' hkq' => hmin q' (List.mem_cons_of_mem _ hq') hkq'

/-- Claim C2: behaviour of `Dht::locate` on a well-formed state (ring strictly sorted
by token — the `BTreeMap` invariant — and every owner id registered in the
membership table): `locate k` is `None` exactly when the ring is empty;
when some token exceeds `k` it returns the registered node of the owner of
the least such token; when every token is at most `k` it wraps around to the
owner of the least token. -/
theorem locate_spec (dht : Dht) (k : Nat)
    (hsort : List.Pairwise (fun a b => a.1 < b.1) dht.tokens)
    (hown : ∀ p ∈ dht.tokens, (lookupNode dht.nodes p.2).isSome = true) :
    (Dht.locate dht k = none ↔ dht.tokens = []) ∧
    (∀ p ∈ dht.tokens, k < p.1 → (∀ q ∈ dht.tokens, k < q.1 → p.1 ≤ q.1) →
      Dht.locate dht k = lookupNode dht.nodes p.2) ∧
    ((∀ q ∈ dht.tokens, q.1 ≤ k) → ∀ p ∈ dht.tokens, (∀ q ∈ dht.tokens, p.1 ≤ q.1) →
      Dht.locate dht k = lookupNode dht.nodes p.2) := by
  obtain ⟨tks, nds⟩ := dht
  simp only at hsort hown
  refine ⟨?_, ?_, ?_⟩
  · cases tks with
    | nil => simp [Dht.locate]
    | cons q0 t =>
      simp only [iff_false, List.cons_ne_nil, ne_eq]
      intro hnone
      cases hfind : (q0 :: t).find? (fun q => decide (k < q.1)) with
      | some p =>
        have hp := List.mem_of_find?_eq_some hfind
        have hsome := hown p hp
        simp only [Dht.locate, hfind] at hnone
        rw [hnone] at hsome
        simp at hsome
      | none =>
        have hsome := hown q0 (List.mem_cons_self _ _)
        simp only [Dht.locate, hfind] at hnone
        rw [hnone] at hsome
        simp at hsome
  · intro p hp hkp hmin
    simp only [Dht.locate, find_min_sorted hsort hp hkp hmin]
  · intro hall p hp hminp
    have hfind : tks.find? (fun q => decide (k < q.1)) = none :=
      List.find?_eq_none.mpr fun q hq => by simpa using Nat.not_lt.mpr (hall q hq)
    cases tks with
    | nil => cases hp
    | cons q0 t =>
      rcases List.mem_cons.mp hp with rfl | hpt
      · simp only [Dht.locate, hfind]
      · exfalso
        have h1 : q0.1 < p.1 := (List.pairwise_cons.mp hsort).1 p hpt
        have h2 : p.1 ≤ q0.1 := hminp q0 (List.mem_cons_self _ _)
        omega

/-- Owner node 0 of the locate witness ring. -/
def exNode0 : Node := Node.new 0 (IpAddr.v4 [127, 0, 0, 1]) 12000

/-- Owner node 1 of the locate witness ring. -/
def exNode1 : Node := Node.new 1 (IpAddr.v4 [127, 0, 0, 1]) 12001

/-- The two-node ring of the spec's end-to-end scenario 1. -/
def exRing : Dht :=
  { tokens := [(0, 0), (3074457345618258432, 1), (6148914691236516864, 0),
               (12297829382473033728, 0)],
    nodes := [(0, exNode0), (1, exNode1)] }

theorem locate_spec_witness :
    Dht.locate exRing 1 = some exNode1 ∧
    Dht.locate exRing 12297829382473033729 = some exNode0 :=
  ⟨((locate_spec exRing 1 (by decide) (by decide)).2.1 (3074457345618258432, 1)
      (by decide) (by decide) (by decide)).trans (by decide),
   ((locate_spec exRing 12297829382473033729 (by decide) (by decide)).2.2
      (by decide) (0, 0) (by decide) (by decide)).trans (by decide)⟩

/-! ## Peer selection -/

/-- With distinct keys, at most one entry is filtered out as local: the
non-local entries number at least `len - 1`. -/
theorem nonlocal_count {nodes : List (Nat × Node)} (h : (nodes.map Prod.fst).Nodup)
    (id : Nat) : nodes.length - 1 ≤ (nodes.filter fun p => p.1 != id).length := by
  induction nodes with
  | nil => simp
  | cons p t ih =>
    simp only [List.map_cons, List.nodup_cons] at h
    by_cases hp : p.1 = id
    · have hall : ∀ q ∈ t, (q.1 != id) = true := by
        intro q hq
        have : q.1 ≠ id := by
          intro hq1
          exact h.1 (by simpa [hq1, ← hp] using List.mem_map_of_mem Prod.fst hq)
        simpa using this
      rw [List.filter_cons_of_neg (by simpa using hp), List.filter_eq_self.mpr hall]
      simp
    · rw [List.filter_cons_of_pos (by simpa using hp)]
      have := ih h.2
      simp only [List.length_cons]
      omega

/-- Whenever the countdown starts below the number of non-local entries, the
selection loop lands on a non-local entry and returns its address. -/
theorem gossipLoop_some {id : Nat} :
    ∀ {nodes : List (Nat × Node)} {index : Nat},
      index < (nodes.filter fun p => p.1 != id).length →
      ∃ p ∈ nodes, p.1 ≠ id ∧ Dht.gossipLoop id nodes index = some p.2.get_address
  | [], index, h => by simp at h
  | (k, n) :: t, index, h => by
    by_cases hk : k = id
    · have hfilter : ((k, n) :: t).filter (fun p => p.1 != id) =
          t.filter fun p => p.1 != id :=
        List.filter_cons_of_neg (by simpa using hk)
      rw [hfilter] at h
      obtain ⟨p, hp, hpne, hloop⟩ := gossipLoop_some h
      refine ⟨p, List.mem_cons_of_mem _ hp, hpne, ?_⟩
      simpa [Dht.gossipLoop, hk] using hloop
    · by_cases hidx : index = 0
      · exact ⟨(k, n), List.mem_cons_self _ _, hk, by
          simp [Dht.gossipLoop, hk, hidx]⟩
      · have hfilter : ((k, n) :: t).filter (fun p => p.1 != id) =
            (k, n) :: t.filter fun p => p.1 != id :=
          List.filter_cons_of_pos (by simpa using hk)
        rw [hfilter, List.length_cons] at h
        have h2 : index - 1 < (t.filter fun p => p.1 != id).length := by omega
        obtain ⟨p, hp, hpne, hloop⟩ := gossipLoop_some h2
        refine ⟨p, List.mem_cons_of_mem _ hp, hpne, ?_⟩
        have hbeq : (k == id) = false := beq_eq_false_iff_ne.mpr hk
        simpa [Dht.gossipLoop, hbeq, hidx] using hloop

/-- Claim C8: behaviour of `Dht::gossip_addr` over a membership table with distinct ids
(the `HashMap` key invariant): with more than one entry it returns the gossip
address of some non-local member — never the local entry, never `None` — and
with at most one entry it returns exactly the configured seed address
(`none` when no seed is configured). -/
theorem gossip_addr_spec (dht : Dht) (id : Nat) (seed_address : Option SocketAddr)
    (r : Nat) (hnodup : (dht.nodes.map Prod.fst).Nodup) :
    (dht.nodes.length > 1 →
      ∃ p ∈ dht.nodes, p.1 ≠ id ∧
        Dht.gossip_addr dht id seed_address r = some p.2.get_address) ∧
    (dht.nodes.length ≤ 1 → Dht.gossip_addr dht id seed_address r = seed_address) := by
  constructor
  · intro hlen
    have hidx : Dht.randIndex r dht.nodes.length < dht.nodes.length - 1 :=
      Nat.mod_lt _ (by omega)
    have hcount := nonlocal_count hnodup id
    obtain ⟨p, hp, hpne, hloop⟩ := @gossipLoop_some id _ _
      (Nat.lt_of_lt_of_le hidx hcount)
    refine ⟨p, hp, hpne, ?_⟩
    simpa [Dht.gossip_addr, hlen] using hloop
  · intro hlen
    have : ¬dht.nodes.length > 1 := by omega
    cases seed_address <;> simp [Dht.gossip_addr, this]

/-- A two-node membership table for the peer-selection witnesses. -/
def exDhtTwo : Dht := { tokens := [], nodes := [(0, exLocal), (1, exStored)] }

theorem gossip_addr_spec_witness :
    (∃ p ∈ exDhtTwo.nodes, p.1 ≠ 0 ∧
      Dht.gossip_addr exDhtTwo 0 none 7 = some p.2.get_address) ∧
    Dht.gossip_addr { tokens := [], nodes := [(0, exLocal)] } 0
      (some { ip := IpAddr.v4 [127, 0, 0, 1], port := 12000 }) 7 =
      some { ip := IpAddr.v4 [127, 0, 0, 1], port := 12000 } :=
  ⟨(gossip_addr_spec exDhtTwo 0 none 7 (by decide)).1 (by decide),
   (gossip_addr_spec { tokens := [], nodes := [(0, exLocal)] } 0
      (some { ip := IpAddr.v4 [127, 0, 0, 1], port := 12000 }) 7 (by decide)).2 (by decide)⟩

/-- Claim C10: peer selection's modulo operand: inside `gossip_addr` the random index is
`randIndex r len = r % (len - 1)`, whose operand `len - 1` is nonzero for
every table with more than one entry; in particular, with exactly two known
nodes (distinct ids) the index is forced to `0`, no remainder-by-zero occurs,
and selection returns some non-local address. -/
theorem randIndex_nonzero_operand (dht : Dht) (id : Nat)
    (seed_address : Option SocketAddr) (r : Nat)
    (hnodup : (dht.nodes.map Prod.fst).Nodup) :
    (dht.nodes.length > 1 →
      dht.nodes.length - 1 ≠ 0 ∧ Dht.randIndex r dht.nodes.length = r % (dht.nodes.length - 1)) ∧
    (dht.nodes.length = 2 →
      Dht.randIndex r dht.nodes.length = 0 ∧
      (Dht.gossip_addr dht id seed_address r).isSome = true) := by
  constructor
  · intro hlen
    exact ⟨by omega, rfl⟩
  · intro hlen
    have hidx : Dht.randIndex r dht.nodes.length < dht.nodes.length - 1 :=
      Nat.mod_lt _ (by omega)
    refine ⟨by unfold Dht.randIndex at hidx ⊢; omega, ?_⟩
    have hcount := nonlocal_count hnodup id
    obtain ⟨p, hp, hpne, hloop⟩ := @gossipLoop_some id _ _
      (Nat.lt_of_lt_of_le hidx hcount)
    have : Dht.gossip_addr dht id seed_address r = some p.2.get_address := by
      simpa [Dht.gossip_addr, hlen] using hloop
    rw [this]
    rfl

theorem randIndex_nonzero_operand_witness :
    Dht.randIndex 7 exDhtTwo.nodes.length = 0 ∧
    (Dht.gossip_addr exDhtTwo 1 none 7).isSome = true :=
  (randIndex_nonzero_operand exDhtTwo 1 none 7 (by decide)).2 (by decide)

/-! ## The reply handler's digest-first rule -/

/-- Claim C5: output of `Dht::reply` on a well-formed request frame: the handler
recovers the requester's record and digests, then, per section, writes the
two-byte count `0` and nothing else when the received digest equals the
locally recomputed one, and otherwise the count of its entire current
snapshot followed by every entry of that snapshot; the two extra conjuncts
check that with fewer than `2^16` entries the count field holds the exact
snapshot length.  The requester's record is inserted afterwards. -/
theorem reply_digest_first (dht : Dht) (rn : Node) (h1 h2 : Nat)
    (hwf : wfNode rn) (hh1 : h1 < 18446744073709551616)
    (hh2 : h2 < 18446744073709551616)
    (hn : dht.nodes.length < 65536) (ht : dht.tokens.length < 65536) :
    Dht.reply dht (Node.write rn ++ write_u64 h1 ++ write_u64 h2) =
      some ((if h1 = hash_nodes (dht.nodes.map Prod.snd)
             then write_u16 0
             else write_u16 dht.nodes.length ++
               List.flatten ((dht.nodes.map Prod.snd).map Node.write)) ++
            (if h2 = hash_tokens dht.tokens
             then write_u16 0
             else write_u16 dht.tokens.length ++
               List.flatten (dht.tokens.map fun p => write_u64 p.1 ++ write_u32 p.2)),
        { dht with nodes := insertNode dht.nodes rn }) ∧
    read_u16 (write_u16 dht.nodes.length) = some (dht.nodes.length, []) ∧
    read_u16 (write_u16 dht.tokens.length) = some (dht.tokens.length, []) := by
  refine ⟨?_, by simpa using read_u16_write_of_lt hn [],
    by simpa using read_u16_write_of_lt ht []⟩
  have hlast : read_u64 (write_u64 h2) = some (h2, []) := by
    simpa using read_u64_write_of_lt hh2 []
  simp only [Dht.reply, List.append_assoc, Option.bind_eq_bind,
    Node.read_write hwf, Option.some_bind, read_u64_write_of_lt hh1,
    hlast, ne_eq, ite_not]

/-- The requester-side node of the reply witness. -/
def exReqNode : Node := Node.new 9 (IpAddr.v4 [127, 0, 0, 1]) 12009

theorem reply_digest_first_witness :
    Dht.reply exDhtTwo (Node.write exReqNode ++ write_u64 0 ++ write_u64 0) =
      some ((if 0 = hash_nodes (exDhtTwo.nodes.map Prod.snd)
             then write_u16 0
             else write_u16 exDhtTwo.nodes.length ++
               List.flatten ((exDhtTwo.nodes.map Prod.snd).map Node.write)) ++
            (if 0 = hash_tokens exDhtTwo.tokens
             then write_u16 0
             else write_u16 exDhtTwo.tokens.length ++
               List.flatten (exDhtTwo.tokens.map fun p => write_u64 p.1 ++ write_u32 p.2)),
        { exDhtTwo with nodes := insertNode exDhtTwo.nodes exReqNode }) :=
  (reply_digest_first exDhtTwo exReqNode 0 0 (by decide) (by decide) (by decide)
    (by decide) (by decide)).1

/-! ## The local id is a key of the membership table in every reachable state -/

theorem containsNode_insertNode {nodes : List (Nat × Node)} {id : Nat} (n : Node)
    (h : containsNode nodes id = true) : containsNode (insertNode nodes n) id = true := by
  induction nodes with
  | nil => simp [containsNode, List.find?] at h
  | cons p t ih =>
    obtain ⟨k, v⟩ := p
    simp only [containsNode, List.find?_cons] at h ⊢
    by_cases hk : (k == n.get_id) = true
    · simp only [insertNode, hk, if_true, List.find?_cons]
      cases hz : (k == id) with
      | true => rfl
      | false =>
        rw [hz] at h
        exact h
    · have hk' : (k == n.get_id) = false := by simpa using hk
      simp only [insertNode, hk', Bool.false_eq_true, if_false, List.find?_cons]
      cases hz : (k == id) with
      | true => rfl
      | false =>
        rw [hz] at h
        exact ih h

theorem containsNode_processNodeUpdates :
    ∀ (count : Nat) (input : List Nat) (m m2 : List (Nat × Node)) (rest : List Nat),
      Dht.processNodeUpdates count input m = some (m2, rest) →
      ∀ id, containsNode m id = true → containsNode m2 id = true := by
  intro count
  induction count with
  | zero =>
    intro input m m2 rest h id hmem
    simp only [Dht.processNodeUpdates, Option.some.injEq, Prod.mk.injEq] at h
    rw [← h.1]
    exact hmem
  | succ c ih =>
    intro input m m2 rest h id hmem
    simp only [Dht.processNodeUpdates, Option.bind_eq_bind, Option.bind_eq_some] at h
    obtain ⟨⟨node, r⟩, hread, hrest⟩ := h
    exact ih r _ m2 rest hrest id (containsNode_insertNode node hmem)

theorem containsNode_updateNodeMetadata (nodes : List (Nat × Node))
    (id' : Nat) (key value : List Nat) (id : Nat) :
    containsNode (updateNodeMetadata nodes id' key value) id = containsNode nodes id := by
  induction nodes with
  | nil => rfl
  | cons p t ih =>
    simp only [updateNodeMetadata, List.map_cons, containsNode, List.find?_cons] at ih ⊢
    have hfst : (if (p.1 == id') = true then (p.1, p.2.set_metadata key value) else p).1 =
        p.1 := by
      by_cases hp : (p.1 == id') = true <;> simp [hp]
    rw [hfst]
    cases hz : (p.1 == id) with
    | true => rfl
    | false => exact ih

/-- Claim C9: the local node id is a key of the membership table in every reachable
state: `Swarm::new` inserts the local record, and none of the mutations the
gossip handlers or `set_metadata` perform ever removes a key. -/
theorem local_id_always_member (id : Nat) (ip_address : IpAddr) (port : Nat)
    (tokens : List Nat) (s : Dht)
    (h : Swarm.Reachable id ip_address port tokens s) :
    containsNode s.nodes id = true := by
  induction h with
  | init => simp [Swarm.init, containsNode, List.find?]
  | step s s2 hs hstep ih =>
    cases hstep with
    | requestRound input out s2 hreq =>
      simp only [Dht.request, Option.bind_eq_bind, Option.bind_eq_some] at hreq
      obtain ⟨node, hnode, ⟨nu, r1⟩, h16a, ⟨nodes2, r2⟩, hproc, ⟨tu, r3⟩, h16b,
        ⟨tokens2, r4⟩, hproct, hfin⟩ := hreq
      simp only [Option.some.injEq, Prod.mk.injEq] at hfin
      rw [← hfin.2]
      exact containsNode_processNodeUpdates nu r1 s.nodes nodes2 r2 hproc id ih
    | replyRound input out s2 hrep =>
      simp only [Dht.reply, Option.bind_eq_bind, Option.bind_eq_some] at hrep
      obtain ⟨⟨node, r1⟩, hread, ⟨h1v, r2⟩, hr1, ⟨h2v, r3⟩, hr2, hfin⟩ := hrep
      simp only [Option.some.injEq, Prod.mk.injEq] at hfin
      rw [← hfin.2]
      exact containsNode_insertNode node ih
    | nodeInsert n => exact containsNode_insertNode n ih
    | tokenMerge t o => exact ih
    | setMetadata key value =>
      rw [Swarm.set_metadata]
      simpa [containsNode_updateNodeMetadata] using ih

theorem local_id_always_member_witness :
    containsNode (Swarm.init 0 (IpAddr.v4 [127, 0, 0, 1]) 12000 [0, 42]).nodes 0 = true :=
  local_id_always_member 0 (IpAddr.v4 [127, 0, 0, 1]) 12000 [0, 42] _ Swarm.Reachable.init
